import Mathlib

/-!
Verification of the tabbs table renderer (src/main.rs).

Text is modelled as Lean `String` (a structure holding a `List Char`);
`String.length` models the length of the ASCII strings in scope (the program
declares multi-byte-aware alignment a non-goal). The output written to the
`Write` sink by `print_table_to_writer` is modelled as the `String` obtained by
concatenating everything the function writes, in order. `Option String` models
Rust's `Option<&str>` for the two color parameters.
-/

/-- Whitespace test on the ASCII range, modelling Rust's `char::is_whitespace`
for the characters this program manipulates. -/
def isWsChar (c : Char) : Bool :=
  c = ' ' || c = '\t' || c = '\n' || c = '\r'

/-- One row of the width loop (main.rs lines 94-98): for each cell index `i`
with `i < column_widths.len()`, replace `widths[i]` by
`max(widths[i], cell.len())`; cells at indices past the end of `widths` are
ignored, widths past the end of the row are unchanged. -/
def updateWidths : List Nat → List String → List Nat
  | ws, [] => ws
  | [], _ => []
  | w :: ws, c :: cs => Nat.max w c.length :: updateWidths ws cs

/-- Column widths of `print_table_to_writer` (main.rs lines 91-99): start from
the lengths of the column names and fold the width loop over the rows. -/
def computeWidths (column_names : List String) (rows : List (List String)) : List Nat :=
  rows.foldl updateWidths (column_names.map String.length)

/-- Concatenation of a list of strings, modelling sequential `write!` calls. -/
def joinStr : List String → String
  | [] => ""
  | s :: ss => s ++ joinStr ss

/-- Join with a single `+` between elements, modelling `Vec::join("+")`
(main.rs line 105). -/
def interPlus : List String → String
  | [] => ""
  | [s] => s
  | s :: ss => s ++ "+" ++ interPlus ss

/-- A run of `w + 2` dashes, modelling `"-".repeat(width + 2)` (line 103). -/
def dashRun (w : Nat) : String :=
  String.mk (List.replicate (w + 2) '-')

/-- The separator built at main.rs lines 101-105. -/
def separatorStr (widths : List Nat) : String :=
  interPlus (widths.map dashRun)

/-- One border line, `writeln!(writer, "+{}+", separator)` (lines 107/122/142),
including the terminating newline. -/
def borderStr (widths : List Nat) : String :=
  "+" ++ separatorStr widths ++ "+" ++ "\n"

/-- ANSI foreground code used by the `colored` crate for a color name; the
crate maps unrecognized names to white ("37"). -/
def colorCode (c : String) : String :=
  if c = "black" then "30"
  else if c = "red" then "31"
  else if c = "green" then "32"
  else if c = "yellow" then "33"
  else if c = "blue" then "34"
  else if c = "magenta" then "35"
  else if c = "cyan" then "36"
  else "37"

/-- Models `text.color(color).to_string()` from the `colored` crate with
colorization active (lines 110-112 and 128-129): the text is wrapped in an
opening escape sequence and the reset sequence. With `None` the raw text is
used unchanged (`map_or(cell.to_string(), ...)`). -/
def colorize : Option String → String → String
  | none, s => s
  | some col, s => "\x1b[" ++ colorCode col ++ "m" ++ s ++ "\x1b[0m"

/-- Rust's `{:<width$}` format on a `String` argument: left align, filling with
spaces on the right up to `w` characters; a string at least `w` characters long
is emitted unchanged. -/
def padTo (s : String) (w : Nat) : String :=
  s ++ String.mk (List.replicate (w - s.length) ' ')

/-- One emitted cell segment, `write!(writer, " {:<width$} |", text, ...)`
(lines 113-119 and 130-136). -/
def cellSeg (color : Option String) (text : String) (w : Nat) : String :=
  " " ++ padTo (colorize color text) w ++ " |"

/-- The header line (main.rs lines 108-121): a bar, then one segment per column
name (the widths list always has exactly one entry per column), then a
newline. -/
def headerLine (header_color : Option String) (column_names : List String)
    (widths : List Nat) : String :=
  "|" ++ joinStr ((column_names.zip widths).map (fun p => cellSeg header_color p.1 p.2))
    ++ "\n"

/-- One data line (main.rs lines 124-139): a bar, then one segment per cell
whose index is below `column_widths.len()` (the zip drops exactly the cells at
larger indices), then a newline. -/
def rowLine (cell_color : Option String) (widths : List Nat) (row : List String) : String :=
  "|" ++ joinStr ((row.zip widths).map (fun p => cellSeg cell_color p.1 p.2)) ++ "\n"

/-- The output of main.rs lines 101-142 for a given width table. -/
def renderWith (widths : List Nat) (column_names : List String)
    (rows : List (List String)) (header_color cell_color : Option String) : String :=
  borderStr widths
    ++ headerLine header_color column_names widths
    ++ borderStr widths
    ++ joinStr (rows.map (rowLine cell_color widths))
    ++ borderStr widths

/-- Everything `print_table_to_writer` (main.rs lines 84-143) writes to the
sink, in order. -/
def print_table_to_writer (column_names : List String) (rows : List (List String))
    (header_color cell_color : Option String) : String :=
  renderWith (computeWidths column_names rows) column_names rows header_color cell_color

/-- Removal of ANSI escape sequences: from an escape character everything up to
and including the terminating `m` is dropped. -/
def stripAnsiAux : Bool → List Char → List Char
  | _, [] => []
  | true, c :: cs => if c = 'm' then stripAnsiAux false cs else stripAnsiAux true cs
  | false, c :: cs =>
    if c = '\x1b' then stripAnsiAux true cs else c :: stripAnsiAux false cs

/-- Strip ANSI color escape sequences from a string. -/
def stripAnsi (s : String) : String :=
  String.mk (stripAnsiAux false s.data)

/-- Number of newline characters in a string; an output consisting of `n`
newline-terminated lines contains exactly `n` newlines, the last one at the
very end. -/
def countNl (s : String) : Nat :=
  s.data.count '\n'

/-- Exit status of `main` as a function of `argv` (main.rs lines 32-38): `1`
when `args.len() < 3 || args[1] != "-c"`, otherwise `0` (implicit success). -/
def main_exit_code (args : List String) : Nat :=
  if args.length < 3 ∨ args.get? 1 ≠ some "-c" then 1 else 0

/-- Whether `main` prints the usage message to standard error (same condition,
main.rs lines 33-38). -/
def usage_printed (args : List String) : Bool :=
  decide (args.length < 3 ∨ args.get? 1 ≠ some "-c")

/-- Rust's `str::split_whitespace` (main.rs line 59): maximal runs of
non-whitespace characters, in order; whitespace is discarded and no empty
record is produced. `acc` holds the reversed characters of the run being
read. -/
def splitWsAux : List Char → List Char → List (List Char)
  | acc, [] => if acc = [] then [] else [acc.reverse]
  | acc, c :: cs =>
    if isWsChar c then
      if acc = [] then splitWsAux [] cs else acc.reverse :: splitWsAux [] cs
    else
      splitWsAux (c :: acc) cs

/-- Rust's `str::split(',')` (main.rs line 60): segments between commas, empty
segments kept, one more segment than there are commas. -/
def splitCommaAux : List Char → List Char → List (List Char)
  | acc, [] => [acc.reverse]
  | acc, c :: cs =>
    if c = ',' then acc.reverse :: splitCommaAux [] cs
    else splitCommaAux (c :: acc) cs

/-- Rust's `str::trim` (main.rs line 60): drop whitespace from the front, then
from the back. -/
def trimChars (l : List Char) : List Char :=
  ((l.dropWhile isWsChar).reverse.dropWhile isWsChar).reverse

/-- The row list `main` builds from standard input and passes to
`print_table_to_writer` (main.rs lines 58-61):
`input.split_whitespace().map(|line| line.split(',').map(|s| s.trim().to_string()).collect()).collect()`. -/
def main_rows (input : String) : List (List String) :=
  (splitWsAux [] input.data).map
    (fun r => (splitCommaAux [] r).map (fun f => String.mk (trimChars f)))

/-- One step of the claim-side width bound: take the maximum of the
accumulator and the length of the cell of row `r` at index `i`, if that row has
such a cell. -/
def cellStep (i : Nat) (m : Nat) (r : List String) : Nat :=
  match r.get? i with
  | some c => Nat.max m c.length
  | none => m

/-- Claim-side maximum of the lengths of all cells at index `i`, starting from
`m`; rows without a cell at index `i` contribute nothing. -/
def cellFold (i m : Nat) (rows : List (List String)) : Nat :=
  rows.foldl (cellStep i) m

/-- The text of an output up to (excluding) the first newline: the first
output line. -/
def firstLineOf (s : String) : String :=
  String.mk (s.data.takeWhile (fun c => c != '\n'))

/-- The condition of claim C8, formalized as stated: the `-c` flag is missing
from the command-line arguments (everything after the program name), or it is
not the first command-line argument. -/
def dashC_missing_or_not_first (args : List String) : Prop :=
  "-c" ∉ args.drop 1 ∨ args.get? 1 ≠ some "-c"

/-- Modelled from the spec (section 6, input format): records are the nonempty
segments obtained by splitting the input on whitespace boundaries; each record
is split on commas into fields; each field is trimmed of surrounding
whitespace. Stated with the Mathlib splitting combinators `List.splitOnP`,
`List.splitOn` and `List.rdropWhile`. -/
def spec_rows (input : String) : List (List String) :=
  ((input.data.splitOnP isWsChar).filter (fun r => !r.isEmpty)).map
    (fun r => (r.splitOn ',').map
      (fun f => String.mk ((f.dropWhile isWsChar).rdropWhile isWsChar)))

/-! ## Basic string and width lemmas -/

theorem strData_append (s t : String) : (s ++ t).data = s.data ++ t.data := by
  cases s; cases t; rfl

theorem strEq_of_data {s t : String} (h : s.data = t.data) : s = t := by
  cases s; cases t; exact congrArg String.mk h

theorem strAppend_empty (s : String) : s ++ "" = s := by
  apply strEq_of_data
  rw [strData_append]
  exact List.append_nil s.data

theorem cellStep_nil (i m : Nat) : cellStep i m [] = m := rfl

theorem cellFold_cons (i m : Nat) (r : List String) (rows : List (List String)) :
    cellFold i m (r :: rows) = cellFold i (cellStep i m r) rows := rfl

theorem updateWidths_nil_left (row : List String) : updateWidths [] row = [] := by
  cases row <;> rfl

theorem updateWidths_get? (ws : List Nat) (row : List String) (i : Nat) :
    (updateWidths ws row).get? i = (ws.get? i).map (fun w => cellStep i w row) := by
  induction ws generalizing row i with
  | nil => rw [updateWidths_nil_left]; rfl
  | cons w ws ih =>
    cases row with
    | nil =>
      show (w :: ws).get? i = ((w :: ws).get? i).map (fun w => cellStep i w [])
      simp only [cellStep_nil]
      cases (w :: ws).get? i <;> rfl
    | cons c cs =>
      cases i with
      | zero => rfl
      | succ i =>
        show (updateWidths ws cs).get? i = (ws.get? i).map _
        rw [ih cs i]
        rfl

theorem foldl_updateWidths_get? (rows : List (List String)) :
    ∀ (ws : List Nat) (i : Nat),
      (rows.foldl updateWidths ws).get? i = (ws.get? i).map (fun w => cellFold i w rows) := by
  induction rows with
  | nil =>
    intro ws i
    show ws.get? i = (ws.get? i).map (fun w => cellFold i w [])
    cases ws.get? i <;> rfl
  | cons r rows ih =>
    intro ws i
    show (rows.foldl updateWidths (updateWidths ws r)).get? i = _
    rw [ih (updateWidths ws r) i, updateWidths_get?, Option.map_map]
    rfl

theorem cellFold_start_max (i a : Nat) (rows : List (List String)) :
    ∀ b : Nat, cellFold i (Nat.max a b) rows = Nat.max a (cellFold i b rows) := by
  induction rows with
  | nil => intro b; rfl
  | cons r rows ih =>
    intro b
    rw [cellFold_cons, cellFold_cons]
    cases h : r.get? i with
    | none =>
      simp only [cellStep, h]
      exact ih b
    | some c =>
      simp only [cellStep, h]
      rw [show (Nat.max a b).max c.length = a.max (b.max c.length) from
        Nat.max_assoc a b c.length]
      exact ih (Nat.max b c.length)

theorem le_cellFold (i : Nat) (rows : List (List String)) :
    ∀ w : Nat, w ≤ cellFold i w rows := by
  induction rows with
  | nil => intro w; exact Nat.le_refl w
  | cons r rows ih =>
    intro w
    rw [cellFold_cons]
    refine Nat.le_trans ?_ (ih (cellStep i w r))
    cases h : r.get? i with
    | none => simp only [cellStep, h]; exact Nat.le_refl w
    | some c => simp only [cellStep, h]; exact Nat.le_max_left _ _

theorem cellFold_cell_le (i : Nat) (rows : List (List String)) :
    ∀ (w : Nat) (r : List String) (c : String),
      r ∈ rows → r.get? i = some c → c.length ≤ cellFold i w rows := by
  induction rows with
  | nil => intro w r c hr; exact absurd hr (List.not_mem_nil r)
  | cons r' rows ih =>
    intro w r c hr hc
    rw [cellFold_cons]
    rcases List.mem_cons.mp hr with h | h
    · subst h
      refine Nat.le_trans ?_ (le_cellFold i rows (cellStep i w r))
      simp only [cellStep, hc]
      exact Nat.le_max_right _ _
    · exact ih (cellStep i w r') r c h hc

/-- C1: for every column list and row list, the computed width of column `i`
equals the maximum of the length of the `i`-th column name and the lengths of
all cells at index `i` in rows that have a cell at index `i` (cells at index
at or past the number of columns are ignored); consequently the width is at
least the column-name length and at least the length of every such cell. -/
theorem computeWidths_spec (column_names : List String) (rows : List (List String))
    (i : Nat) (h : i < column_names.length) :
    (computeWidths column_names rows).get? i
        = some (Nat.max (column_names.get ⟨i, h⟩).length (cellFold i 0 rows))
      ∧ ∀ w, (computeWidths column_names rows).get? i = some w →
          (column_names.get ⟨i, h⟩).length ≤ w
            ∧ ∀ r ∈ rows, ∀ c, r.get? i = some c → c.length ≤ w := by
  have hmap : (column_names.map String.length).get? i
      = some (column_names.get ⟨i, h⟩).length := by
    rw [List.get?_map, List.get?_eq_get h]
    rfl
  have h1 : (computeWidths column_names rows).get? i
      = some (cellFold i (column_names.get ⟨i, h⟩).length rows) := by
    rw [computeWidths, foldl_updateWidths_get? rows _ i, hmap]
    rfl
  have h2 := cellFold_start_max i (column_names.get ⟨i, h⟩).length rows 0
  rw [show Nat.max (column_names.get ⟨i, h⟩).length 0 = (column_names.get ⟨i, h⟩).length from
    Nat.max_eq_left (Nat.zero_le _)] at h2
  refine ⟨h1.trans (congrArg some h2), ?_⟩
  intro w hw
  rw [h1] at hw
  injection hw with hw
  subst hw
  exact ⟨le_cellFold i rows _, fun r hr c hc => cellFold_cell_le i rows _ r c hr hc⟩

/-- Witness for C1: columns `["ab", "c"]`, rows `[["abc"], ["x", "hello", "zz"]]`,
column index 0: the computed width is `max 2 3 = 3` (the cell `"hello"` sits at
index 1 and `"zz"` at index 2, so neither affects column 0). -/
theorem computeWidths_spec_test :
    0 < (["ab", "c"] : List String).length
      ∧ (computeWidths ["ab", "c"] [["abc"], ["x", "hello", "zz"]]).get? 0 = some 3 :=
  ⟨by decide,
    ((computeWidths_spec ["ab", "c"] [["abc"], ["x", "hello", "zz"]] 0 (by decide)).1).trans
      (by decide)⟩

/-- C2: evaluation at the failing input, columns `["ab"]`, rows `[["a"]]`, cell
color red. The code colorizes first and then pads, so the escape sequences
count toward the `{:<width$}` width: the colored cell is emitted with no
trailing padding, and the output stripped of escape sequences differs from the
uncolored render of the same input (which pads `"a"` to width 2). -/
theorem padding_counts_escapes :
    print_table_to_writer ["ab"] [["a"]] none (some "red")
        = "+----+\n| ab |\n+----+\n| \x1b[31ma\x1b[0m |\n+----+\n"
      ∧ ¬ (stripAnsi (print_table_to_writer ["ab"] [["a"]] none (some "red"))
            = print_table_to_writer ["ab"] [["a"]] none none) := by
  constructor
  · decide
  · decide

/-- C3: evaluation at the failing input, columns `["abc"]`, rows `[["a"]]`,
cell color red. After removing the escape sequences the data line is
`"| a |"`, of length 5, while the claim requires every data line to have
length `(width + 3) + 1 = 7`, the length of the header line `"| abc |"`. -/
theorem alignment_broken_by_color :
    stripAnsi (print_table_to_writer ["abc"] [["a"]] none (some "red"))
        = "+-----+\n| abc |\n+-----+\n| a |\n+-----+\n"
      ∧ ¬ (("| a |" : String).length = (3 + 3) + 1)
      ∧ ¬ (("| a |" : String).length = ("| abc |" : String).length) := by
  refine ⟨by decide, by decide, by decide⟩

/-- C6 counterexample: with the non-empty column list `["a\nb"]` (a column
name containing a newline) and no rows, the rendered output contains five
newlines, so it is not four newline-terminated lines as the claim states for
every non-empty column list. -/
theorem four_lines_cex :
    ¬ (countNl (print_table_to_writer ["a\nb"] [] none none) = 4) := by
  decide

/-- C7 counterexample: with zero columns the border lines are `++` (the
`writeln!` writes a `+` on each side of the empty separator) and the header
and data lines are a single `|` (the initial bar, no segments), not `+` and
`||` as the claim states. -/
theorem zero_columns_cex :
    print_table_to_writer [] [["x"]] none none = "++\n|\n++\n|\n++\n"
      ∧ ¬ (print_table_to_writer [] [["x"]] none none = "+\n||\n+\n||\n+\n") := by
  constructor
  · decide
  · decide

/-- C8 counterexample: for the argument list `["tabb", "-c"]` the process
exits with status 1 (because `args.len() < 3`), yet `-c` is present and is the
first command-line argument, so the claimed equivalence fails at this input. -/
theorem usage_check_cex :
    main_exit_code ["tabb", "-c"] = 1
      ∧ ¬ dashC_missing_or_not_first ["tabb", "-c"] := by
  constructor
  · decide
  · unfold dashC_missing_or_not_first
    decide

/-- C10 counterexample: for columns `["a"]` and the single row `[["x\ny"]]`
(a cell containing a newline) the output contains six newlines, not
`rows.len() + 4 = 5`, so it does not consist of `rows.len() + 4`
newline-terminated lines. -/
theorem line_count_cex :
    ¬ (countNl (print_table_to_writer ["a"] [["x\ny"]] none none) = 1 + 4) := by
  decide

/-! ## First line of the output -/

theorem takeWhile_nl (a R : List Char) (h : ('\n' : Char) ∉ a) :
    (a ++ '\n' :: R).takeWhile (fun c => c != '\n') = a := by
  induction a with
  | nil => simp [List.takeWhile_cons]
  | cons x xs ih =>
    have hx : x ≠ '\n' := by
      intro he
      subst he
      exact h (List.mem_cons_self _ _)
    have hxs : ('\n' : Char) ∉ xs := fun hm => h (List.mem_cons_of_mem x hm)
    simp [List.takeWhile_cons, bne_iff_ne, hx, ih hxs]

theorem interPlus_data_no_nl (l : List String) (h : ∀ s ∈ l, ('\n' : Char) ∉ s.data) :
    ('\n' : Char) ∉ (interPlus l).data := by
  induction l with
  | nil => intro hm; exact absurd hm (by decide)
  | cons s ss ih =>
    cases ss with
    | nil => exact h s (List.mem_cons_self _ _)
    | cons s2 ss2 =>
      show ('\n' : Char) ∉ (s ++ "+" ++ interPlus (s2 :: ss2)).data
      intro hm
      rw [strData_append, strData_append] at hm
      rcases List.mem_append.mp hm with hm | hm
      · rcases List.mem_append.mp hm with hm | hm
        · exact h s (List.mem_cons_self _ _) hm
        · exact absurd hm (by decide)
      · exact ih (fun t ht => h t (List.mem_cons_of_mem s ht)) hm

theorem nl_not_mem_dashRun (w : Nat) : ('\n' : Char) ∉ (dashRun w).data := by
  show ('\n' : Char) ∉ List.replicate (w + 2) '-'
  simp [List.mem_replicate]

theorem nl_not_mem_sep (ws : List Nat) : ('\n' : Char) ∉ (separatorStr ws).data := by
  refine interPlus_data_no_nl (ws.map dashRun) ?_
  intro s hs
  rcases List.mem_map.mp hs with ⟨w, _, rfl⟩
  exact nl_not_mem_dashRun w

theorem firstLine_renderWith (ws : List Nat) (cols : List String)
    (rows : List (List String)) (hc cc : Option String) :
    firstLineOf (renderWith ws cols rows hc cc) = "+" ++ separatorStr ws ++ "+" := by
  apply strEq_of_data
  have hp : ("+" : String).data = ['+'] := rfl
  have hn : ("\n" : String).data = ['\n'] := rfl
  have hnl : ('\n' : Char) ∉ ('+' :: (separatorStr ws).data) ++ ['+'] := by
    intro hm
    rcases List.mem_append.mp hm with hm | hm
    · rcases List.mem_cons.mp hm with hm | hm
      · exact absurd hm (by decide)
      · exact nl_not_mem_sep ws hm
    · exact absurd hm (by decide)
  have hdata : (renderWith ws cols rows hc cc).data
      = (('+' :: (separatorStr ws).data) ++ ['+'])
        ++ '\n' :: (headerLine hc cols ws ++ borderStr ws
            ++ joinStr (rows.map (rowLine cc ws)) ++ borderStr ws).data := by
    simp [renderWith, borderStr, strData_append, hp, hn]
  show ((renderWith ws cols rows hc cc).data).takeWhile (fun c => c != '\n')
      = ("+" ++ separatorStr ws ++ "+").data
  rw [hdata, takeWhile_nl _ _ hnl]
  simp [strData_append, hp]

/-- C4: for every column list and row list, the column widths computed when
`header_color` and/or `cell_color` are set are identical to those computed with
both colors absent: the render is the render over `computeWidths`, which does
not read the color parameters, and consequently the border line (which encodes
every width as a run of `width + 2` dashes) is the same whatever the colors
are. -/
theorem widths_color_transparent (column_names : List String) (rows : List (List String))
    (header_color cell_color : Option String) :
    print_table_to_writer column_names rows header_color cell_color
        = renderWith (computeWidths column_names rows) column_names rows header_color cell_color
      ∧ firstLineOf (print_table_to_writer column_names rows header_color cell_color)
          = firstLineOf (print_table_to_writer column_names rows none none) := by
  refine ⟨rfl, ?_⟩
  rw [print_table_to_writer, print_table_to_writer, firstLine_renderWith, firstLine_renderWith]

/-! ## Newline counting -/

theorem countNl_append (s t : String) : countNl (s ++ t) = countNl s + countNl t := by
  simp [countNl, strData_append]

theorem countNl_eq_zero {s : String} (h : ('\n' : Char) ∉ s.data) : countNl s = 0 :=
  List.count_eq_zero.mpr h

theorem countNl_border (ws : List Nat) : countNl (borderStr ws) = 1 := by
  have h1 : countNl "+" = 0 := by decide
  have h2 : countNl "\n" = 1 := by decide
  rw [borderStr, countNl_append, countNl_append, countNl_append, h1, h2,
    countNl_eq_zero (nl_not_mem_sep ws)]

theorem colorCode_no_nl (c : String) : ('\n' : Char) ∉ (colorCode c).data := by
  unfold colorCode
  repeat' split
  all_goals decide

theorem colorize_no_nl (co : Option String) (s : String) (h : ('\n' : Char) ∉ s.data) :
    ('\n' : Char) ∉ (colorize co s).data := by
  cases co with
  | none => exact h
  | some c =>
    show ('\n' : Char) ∉ ("\x1b[" ++ colorCode c ++ "m" ++ s ++ "\x1b[0m").data
    intro hm
    rw [strData_append, strData_append, strData_append, strData_append] at hm
    rcases List.mem_append.mp hm with hm | hm
    · rcases List.mem_append.mp hm with hm | hm
      · rcases List.mem_append.mp hm with hm | hm
        · rcases List.mem_append.mp hm with hm | hm
          · exact absurd hm (by decide)
          · exact colorCode_no_nl c hm
        · exact absurd hm (by decide)
      · exact h hm
    · exact absurd hm (by decide)

theorem padTo_no_nl (s : String) (w : Nat) (h : ('\n' : Char) ∉ s.data) :
    ('\n' : Char) ∉ (padTo s w).data := by
  intro hm
  unfold padTo at hm
  rw [strData_append] at hm
  rcases List.mem_append.mp hm with hm | hm
  · exact h hm
  · have hr : ('\n' : Char) ∈ List.replicate (w - s.length) ' ' := hm
    simp [List.mem_replicate] at hr

theorem cellSeg_no_nl (co : Option String) (text : String) (w : Nat)
    (h : ('\n' : Char) ∉ text.data) : ('\n' : Char) ∉ (cellSeg co text w).data := by
  intro hm
  unfold cellSeg at hm
  rw [strData_append, strData_append] at hm
  rcases List.mem_append.mp hm with hm | hm
  · rcases List.mem_append.mp hm with hm | hm
    · exact absurd hm (by decide)
    · exact padTo_no_nl _ w (colorize_no_nl co text h) hm
  · exact absurd hm (by decide)

theorem joinStr_no_nl (l : List String) (h : ∀ s ∈ l, ('\n' : Char) ∉ s.data) :
    ('\n' : Char) ∉ (joinStr l).data := by
  induction l with
  | nil => intro hm; exact absurd hm (by decide)
  | cons s ss ih =>
    show ('\n' : Char) ∉ (s ++ joinStr ss).data
    intro hm
    rw [strData_append] at hm
    rcases List.mem_append.mp hm with hm | hm
    · exact h s (List.mem_cons_self _ _) hm
    · exact ih (fun t ht => h t (List.mem_cons_of_mem s ht)) hm

theorem countNl_headerLine (hc : Option String) (cols : List String) (ws : List Nat)
    (h : ∀ s ∈ cols, ('\n' : Char) ∉ s.data) : countNl (headerLine hc cols ws) = 1 := by
  have h1 : countNl "|" = 0 := by decide
  have h2 : countNl "\n" = 1 := by decide
  have hj : countNl (joinStr ((cols.zip ws).map (fun p => cellSeg hc p.1 p.2))) = 0 := by
    refine countNl_eq_zero (joinStr_no_nl _ ?_)
    intro s hs
    rcases List.mem_map.mp hs with ⟨p, hp, rfl⟩
    exact cellSeg_no_nl hc p.1 p.2 (h p.1 (List.of_mem_zip hp).1)
  rw [headerLine, countNl_append, countNl_append, h1, h2, hj]

theorem countNl_rowLine (cc : Option String) (ws : List Nat) (row : List String)
    (h : ∀ s ∈ row, ('\n' : Char) ∉ s.data) : countNl (rowLine cc ws row) = 1 := by
  have h1 : countNl "|" = 0 := by decide
  have h2 : countNl "\n" = 1 := by decide
  have hj : countNl (joinStr ((row.zip ws).map (fun p => cellSeg cc p.1 p.2))) = 0 := by
    refine countNl_eq_zero (joinStr_no_nl _ ?_)
    intro s hs
    rcases List.mem_map.mp hs with ⟨p, hp, rfl⟩
    exact cellSeg_no_nl cc p.1 p.2 (h p.1 (List.of_mem_zip hp).1)
  rw [rowLine, countNl_append, countNl_append, h1, h2, hj]

theorem countNl_rowsBlock (cc : Option String) (ws : List Nat) (rows : List (List String))
    (h : ∀ r ∈ rows, ∀ s ∈ r, ('\n' : Char) ∉ s.data) :
    countNl (joinStr (rows.map (rowLine cc ws))) = rows.length := by
  induction rows with
  | nil => rfl
  | cons r rows ih =>
    show countNl (rowLine cc ws r ++ joinStr (rows.map (rowLine cc ws))) = rows.length + 1
    rw [countNl_append, countNl_rowLine cc ws r (h r (List.mem_cons_self _ _)),
      ih (fun t ht => h t (List.mem_cons_of_mem r ht))]
    omega

theorem getLast_renderWith (ws : List Nat) (cols : List String)
    (rows : List (List String)) (hc cc : Option String) :
    (renderWith ws cols rows hc cc).data.getLast? = some '\n' := by
  have hn : ("\n" : String).data = ['\n'] := rfl
  have hb : (borderStr ws).data.getLast? = some '\n' := by
    rw [borderStr, strData_append, hn]
    exact List.getLast?_concat _
  show ((borderStr ws ++ headerLine hc cols ws ++ borderStr ws
      ++ joinStr (rows.map (rowLine cc ws)) ++ borderStr ws).data).getLast? = some '\n'
  rw [strData_append, List.getLast?_append, hb]
  rfl

/-- C6 (amended): for every non-empty column list and an empty row list, the
rendered output is exactly the border line, the header line, and two more
border lines, in that order, with no data rows and no special-casing of the
empty input; provided no column name contains a newline character, the output
therefore consists of exactly four newline-terminated lines. -/
theorem print_table_no_rows (cols : List String) (hc cc : Option String)
    (h : cols ≠ []) :
    print_table_to_writer cols [] hc cc
        = borderStr (cols.map String.length)
          ++ headerLine hc cols (cols.map String.length)
          ++ borderStr (cols.map String.length)
          ++ borderStr (cols.map String.length)
      ∧ ((∀ s ∈ cols, ('\n' : Char) ∉ s.data) →
          countNl (print_table_to_writer cols [] hc cc) = 4) := by
  have heq : print_table_to_writer cols [] hc cc
      = borderStr (cols.map String.length)
        ++ headerLine hc cols (cols.map String.length)
        ++ borderStr (cols.map String.length)
        ++ borderStr (cols.map String.length) := by
    show borderStr (cols.map String.length)
        ++ headerLine hc cols (cols.map String.length)
        ++ borderStr (cols.map String.length)
        ++ "" ++ borderStr (cols.map String.length) = _
    rw [strAppend_empty]
  refine ⟨heq, fun hnl => ?_⟩
  rw [heq, countNl_append, countNl_append, countNl_append, countNl_border,
    countNl_headerLine hc cols _ hnl]

/-- Witness for C6 (amended) at columns `["a", "b"]`, no rows, cell color red:
the hypotheses hold and the output has exactly four newline-terminated
lines. -/
theorem print_table_no_rows_test :
    (["a", "b"] : List String) ≠ []
      ∧ countNl (print_table_to_writer ["a", "b"] [] none (some "red")) = 4 :=
  ⟨by decide, (print_table_no_rows ["a", "b"] none (some "red") (by decide)).2 (by decide)⟩

/-- C10 (amended): for every column list, row list and color options, the
rendered output is the border line, the header line, a border line, one data
line per row (even a row with zero renderable cells produces its line), and a
final border line; the output ends with a newline, and provided no column name
or cell text contains a newline character it consists of exactly
`rows.length + 4` newline-terminated lines. -/
theorem print_table_line_count (cols : List String) (rows : List (List String))
    (hc cc : Option String) :
    print_table_to_writer cols rows hc cc
        = borderStr (computeWidths cols rows)
          ++ headerLine hc cols (computeWidths cols rows)
          ++ borderStr (computeWidths cols rows)
          ++ joinStr (rows.map (rowLine cc (computeWidths cols rows)))
          ++ borderStr (computeWidths cols rows)
      ∧ (rows.map (rowLine cc (computeWidths cols rows))).length = rows.length
      ∧ (print_table_to_writer cols rows hc cc).data.getLast? = some '\n'
      ∧ ((∀ s ∈ cols, ('\n' : Char) ∉ s.data) →
          (∀ r ∈ rows, ∀ s ∈ r, ('\n' : Char) ∉ s.data) →
          countNl (print_table_to_writer cols rows hc cc) = rows.length + 4) := by
  have heq : print_table_to_writer cols rows hc cc
      = borderStr (computeWidths cols rows)
        ++ headerLine hc cols (computeWidths cols rows)
        ++ borderStr (computeWidths cols rows)
        ++ joinStr (rows.map (rowLine cc (computeWidths cols rows)))
        ++ borderStr (computeWidths cols rows) := rfl
  refine ⟨heq, by simp, getLast_renderWith _ _ _ _ _, fun h1 h2 => ?_⟩
  rw [heq, countNl_append, countNl_append, countNl_append, countNl_append,
    countNl_border, countNl_headerLine hc cols _ h1,
    countNl_rowsBlock cc _ rows h2]
  omega

/-- Witness for C10 (amended) at columns `["a", "b"]`, rows
`[["x"], ["y", "z"]]`, cell color red: the newline-freedom hypotheses hold and
the output has exactly `2 + 4` newline-terminated lines. -/
theorem print_table_line_count_test :
    (∀ s ∈ (["a", "b"] : List String), ('\n' : Char) ∉ s.data)
      ∧ countNl (print_table_to_writer ["a", "b"] [["x"], ["y", "z"]] none (some "red"))
          = 2 + 4 :=
  ⟨by decide,
    (print_table_line_count ["a", "b"] [["x"], ["y", "z"]] none (some "red")).2.2.2
      (by decide) (by decide)⟩

/-! ## Degenerate and truncated tables -/

theorem computeWidths_nil_cols (rows : List (List String)) : computeWidths [] rows = [] := by
  show rows.foldl updateWidths [] = []
  induction rows with
  | nil => rfl
  | cons r rows ih =>
    show rows.foldl updateWidths (updateWidths [] r) = []
    rw [updateWidths_nil_left]
    exact ih

theorem rowLine_nil_widths (cc : Option String) (row : List String) :
    rowLine cc [] row = "|\n" := by
  simp only [rowLine, List.zip_nil_right, List.map_nil]
  decide

/-- C7 (amended): when the column list is empty, rendering follows the same
algorithm with no special case; the separator is empty, so each border line
degenerates to `++` (a `+` on each side of the empty separator) and the header
line and every data line degenerate to a bare `|`. -/
theorem zero_columns_render (rows : List (List String)) (hc cc : Option String) :
    print_table_to_writer [] rows hc cc
      = "++\n|\n++\n" ++ joinStr (rows.map (fun _ => "|\n")) ++ "++\n" := by
  have hb : borderStr [] = "++\n" := by decide
  have hh : headerLine hc [] [] = "|\n" := by
    simp only [headerLine, List.zip_nil_right, List.map_nil]
    decide
  have hrow : rows.map (rowLine cc []) = rows.map (fun _ => "|\n") :=
    List.map_congr_left (fun r _ => rowLine_nil_widths cc r)
  show renderWith (computeWidths [] rows) [] rows hc cc = _
  rw [computeWidths_nil_cols rows]
  show borderStr [] ++ headerLine hc [] [] ++ borderStr []
      ++ joinStr (rows.map (rowLine cc [])) ++ borderStr [] = _
  rw [hb, hh, hrow, show ("++\n" ++ "|\n" ++ "++\n" : String) = "++\n|\n++\n" from by decide]

theorem updateWidths_length (ws : List Nat) : ∀ row, (updateWidths ws row).length = ws.length := by
  induction ws with
  | nil => intro row; rw [updateWidths_nil_left]
  | cons w ws ih =>
    intro row
    cases row with
    | nil => rfl
    | cons c cs =>
      show (Nat.max w c.length :: updateWidths ws cs).length = (w :: ws).length
      simp [ih cs]

theorem foldl_updateWidths_length (rows : List (List String)) :
    ∀ ws : List Nat, (rows.foldl updateWidths ws).length = ws.length := by
  induction rows with
  | nil => intro ws; rfl
  | cons r rows ih =>
    intro ws
    show (rows.foldl updateWidths (updateWidths ws r)).length = ws.length
    rw [ih (updateWidths ws r), updateWidths_length]

theorem computeWidths_length (cols : List String) (rows : List (List String)) :
    (computeWidths cols rows).length = cols.length := by
  show (rows.foldl updateWidths (cols.map String.length)).length = cols.length
  rw [foldl_updateWidths_length, List.length_map]

theorem updateWidths_take (ws : List Nat) :
    ∀ row, updateWidths ws row = updateWidths ws (row.take ws.length) := by
  induction ws with
  | nil => intro row; rw [updateWidths_nil_left, updateWidths_nil_left]
  | cons w ws ih =>
    intro row
    cases row with
    | nil => rfl
    | cons c cs =>
      show Nat.max w c.length :: updateWidths ws cs
          = updateWidths (w :: ws) ((c :: cs).take (w :: ws).length)
      rw [show (c :: cs).take (w :: ws).length = c :: cs.take ws.length from rfl]
      show Nat.max w c.length :: updateWidths ws cs
          = Nat.max w c.length :: updateWidths ws (cs.take ws.length)
      rw [ih cs]

theorem computeWidths_take (cols : List String) (rows : List (List String)) :
    computeWidths cols rows = computeWidths cols (rows.map (fun r => r.take cols.length)) := by
  suffices haux : ∀ (rows : List (List String)) (ws : List Nat), ws.length = cols.length →
      rows.foldl updateWidths ws
        = (rows.map (fun r => r.take cols.length)).foldl updateWidths ws by
    exact haux rows (cols.map String.length) (List.length_map _ _)
  intro rows
  induction rows with
  | nil => intro ws _; rfl
  | cons r rows ih =>
    intro ws hlen
    show rows.foldl updateWidths (updateWidths ws r)
        = (rows.map (fun r => r.take cols.length)).foldl updateWidths
            (updateWidths ws (r.take cols.length))
    have hone : updateWidths ws (r.take cols.length) = updateWidths ws r := by
      rw [← hlen, ← updateWidths_take ws r]
    rw [hone]
    exact ih (updateWidths ws r) ((updateWidths_length ws r).trans hlen)

theorem zip_take_len (row : List String) :
    ∀ ws : List Nat, row.zip ws = (row.take ws.length).zip ws := by
  induction row with
  | nil => intro ws; rw [List.take_nil]
  | cons c cs ih =>
    intro ws
    cases ws with
    | nil => simp [List.zip_nil_right]
    | cons w ws2 =>
      show (c, w) :: cs.zip ws2 = ((c :: cs).take (w :: ws2).length).zip (w :: ws2)
      rw [show (c :: cs).take (w :: ws2).length = c :: cs.take ws2.length from rfl]
      show (c, w) :: cs.zip ws2 = (c, w) :: (cs.take ws2.length).zip ws2
      rw [ih ws2]

theorem rowLine_take (cc : Option String) (ws : List Nat) (row : List String) :
    rowLine cc ws row = rowLine cc ws (row.take ws.length) := by
  simp only [rowLine]
  rw [zip_take_len row ws]

/-- C5: for every row list and column list, a row with fewer cells than there
are columns is rendered with exactly one segment per cell it has (no
blank-padded segments for missing positions), and a row with more cells than
there are columns is rendered with only its first `cols.length` cells: the
whole render and the computed widths are unchanged when every row is truncated
to its first `cols.length` cells. -/
theorem dropped_cells (cols : List String) (rows : List (List String))
    (hc cc : Option String) :
    print_table_to_writer cols rows hc cc
        = print_table_to_writer cols (rows.map (fun r => r.take cols.length)) hc cc
      ∧ computeWidths cols rows
          = computeWidths cols (rows.map (fun r => r.take cols.length))
      ∧ ∀ row : List String, row.length ≤ cols.length →
          ((row.zip (computeWidths cols rows)).map
              (fun p => cellSeg cc p.1 p.2)).length = row.length := by
  have hwidth := computeWidths_take cols rows
  have hlen := computeWidths_length cols rows
  refine ⟨?_, hwidth, ?_⟩
  · show renderWith (computeWidths cols rows) cols rows hc cc
        = renderWith (computeWidths cols (rows.map (fun r => r.take cols.length)))
            cols (rows.map (fun r => r.take cols.length)) hc cc
    rw [← hwidth]
    have hJ : rows.map (rowLine cc (computeWidths cols rows))
        = (rows.map (fun r => r.take cols.length)).map
            (rowLine cc (computeWidths cols rows)) := by
      rw [List.map_map]
      refine List.map_congr_left ?_
      intro r _
      calc rowLine cc (computeWidths cols rows) r
          = rowLine cc (computeWidths cols rows)
              (r.take (computeWidths cols rows).length) :=
            rowLine_take cc (computeWidths cols rows) r
        _ = (rowLine cc (computeWidths cols rows) ∘ fun r => r.take cols.length) r := by
            rw [hlen]; rfl
    show borderStr (computeWidths cols rows)
        ++ headerLine hc cols (computeWidths cols rows)
        ++ borderStr (computeWidths cols rows)
        ++ joinStr (rows.map (rowLine cc (computeWidths cols rows)))
        ++ borderStr (computeWidths cols rows)
      = borderStr (computeWidths cols rows)
        ++ headerLine hc cols (computeWidths cols rows)
        ++ borderStr (computeWidths cols rows)
        ++ joinStr ((rows.map (fun r => r.take cols.length)).map
            (rowLine cc (computeWidths cols rows)))
        ++ borderStr (computeWidths cols rows)
    rw [← hJ]
  · intro row hrow
    rw [List.length_map, List.length_zip, hlen]
    exact Nat.min_eq_left hrow

/-- Witness for C5 at columns `["a", "b"]`, rows `[["x"], ["p", "q", "r"]]`:
the one-cell row `["x"]` satisfies the length hypothesis and is rendered with
exactly one segment. -/
theorem dropped_cells_test :
    (["x"] : List String).length ≤ (["a", "b"] : List String).length
      ∧ (((["x"] : List String).zip
            (computeWidths ["a", "b"] [["x"], ["p", "q", "r"]])).map
          (fun p => cellSeg (some "red") p.1 p.2)).length = 1 :=
  ⟨by decide,
    (dropped_cells ["a", "b"] [["x"], ["p", "q", "r"]] none (some "red")).2.2
      ["x"] (by decide)⟩

/-- C8 (amended): the process exits with status 1 and prints the usage message
to standard error if and only if the argument list is not of the form
`program :: "-c" :: column-list :: rest`, i.e. iff `-c` is missing, is not the
first command-line argument, or is not followed by a column-list argument
(fewer than three entries including the program name); when `-c` is the first
argument and a column-list argument follows, checking passes and the process
exits with status 0. -/
theorem usage_check (args : List String) :
    (main_exit_code args = 1 ∧ usage_printed args = true
        ↔ ¬ ∃ prog cspec rest, args = prog :: "-c" :: cspec :: rest)
      ∧ (main_exit_code args = 0
        ↔ ∃ prog cspec rest, args = prog :: "-c" :: cspec :: rest) := by
  have key : (args.length < 3 ∨ args.get? 1 ≠ some "-c")
      ↔ ¬ ∃ prog cspec rest, args = prog :: "-c" :: cspec :: rest := by
    constructor
    · rintro h ⟨p, cs, r, rfl⟩
      rcases h with h | h
      · simp only [List.length_cons] at h
        omega
      · exact h rfl
    · intro h
      rcases args with _ | ⟨a, _ | ⟨b, _ | ⟨c, rest⟩⟩⟩
      · left; decide
      · left
        simp only [List.length_cons, List.length_nil]
        omega
      · left
        simp only [List.length_cons, List.length_nil]
        omega
      · right
        intro hget
        injection hget with hb
        exact h ⟨a, c, rest, by rw [hb]⟩
  refine ⟨⟨?_, ?_⟩, ?_, ?_⟩
  · intro hx
    by_cases hcond : (args.length < 3 ∨ args.get? 1 ≠ some "-c")
    · exact key.mp hcond
    · exfalso
      have h1 := hx.1
      simp only [main_exit_code, if_neg hcond] at h1
      exact absurd h1 (by decide)
  · intro hne
    have hcond := key.mpr hne
    constructor
    · simp only [main_exit_code, if_pos hcond]
    · simp only [usage_printed]
      exact decide_eq_true hcond
  · intro h0
    by_cases hcond : (args.length < 3 ∨ args.get? 1 ≠ some "-c")
    · exfalso
      simp only [main_exit_code, if_pos hcond] at h0
      exact absurd h0 (by decide)
    · by_contra hne
      exact hcond (key.mpr hne)
  · intro hex
    have hcond : ¬ (args.length < 3 ∨ args.get? 1 ≠ some "-c") :=
      fun hc => (key.mp hc) hex
    simp only [main_exit_code, if_neg hcond]

/-! ## Input parsing -/

theorem modifyHeadId (l : List (List Char)) : l.modifyHead (fun t => t) = l := by
  cases l <;> rfl

theorem splitCommaAux_eq (l : List Char) :
    ∀ acc, splitCommaAux acc l
      = (l.splitOnP (fun x => x == ',')).modifyHead (fun t => acc.reverse ++ t) := by
  induction l with
  | nil =>
    intro acc
    show [acc.reverse] = ([[]] : List (List Char)).modifyHead (fun t => acc.reverse ++ t)
    simp
  | cons c cs ih =>
    intro acc
    by_cases hc : c = ','
    · rw [show splitCommaAux acc (c :: cs) = acc.reverse :: splitCommaAux [] cs from by
        simp [splitCommaAux, hc]]
      rw [ih [], show ((c :: cs).splitOnP (fun x => x == ','))
          = [] :: cs.splitOnP (fun x => x == ',') from by simp [List.splitOnP_cons, hc]]
      rw [show (fun t : List Char => ([] : List Char).reverse ++ t) = fun t => t from
        funext fun t => by simp]
      rw [modifyHeadId]
      simp
    · rw [show splitCommaAux acc (c :: cs) = splitCommaAux (c :: acc) cs from by
        simp [splitCommaAux, hc]]
      rw [ih (c :: acc), show ((c :: cs).splitOnP (fun x => x == ','))
          = (cs.splitOnP (fun x => x == ',')).modifyHead (List.cons c) from by
        simp [List.splitOnP_cons, hc]]
      rw [List.modifyHead_modifyHead]
      congr 1
      funext t
      simp [List.reverse_cons, List.append_assoc]

theorem splitComma_eq (l : List Char) : splitCommaAux [] l = l.splitOn ',' := by
  rw [splitCommaAux_eq l []]
  rw [show (fun t : List Char => ([] : List Char).reverse ++ t) = fun t => t from
    funext fun t => by simp]
  rw [modifyHeadId]
  rfl

theorem splitWsAux_eq (l : List Char) :
    ∀ acc, splitWsAux acc l
      = ((l.splitOnP isWsChar).modifyHead (fun t => acc.reverse ++ t)).filter
          (fun r => !r.isEmpty) := by
  induction l with
  | nil =>
    intro acc
    show (if acc = [] then [] else [acc.reverse])
        = (([[]] : List (List Char)).modifyHead (fun t => acc.reverse ++ t)).filter
            (fun r => !r.isEmpty)
    by_cases ha : acc = []
    · subst ha
      rfl
    · have hne : acc.reverse ≠ [] := by simpa using ha
      simp [List.filter, List.isEmpty_eq_false.mpr hne, ha]
  | cons c cs ih =>
    intro acc
    by_cases hw : isWsChar c
    · rw [show ((c :: cs).splitOnP isWsChar) = [] :: cs.splitOnP isWsChar from by
        simp [List.splitOnP_cons, hw]]
      rw [show splitWsAux acc (c :: cs)
          = (if acc = [] then splitWsAux [] cs else acc.reverse :: splitWsAux [] cs) from by
        simp [splitWsAux, hw]]
      have hnil := ih []
      rw [show (fun t : List Char => ([] : List Char).reverse ++ t) = fun t => t from
        funext fun t => by simp, modifyHeadId] at hnil
      by_cases ha : acc = []
      · subst ha
        rw [if_pos rfl, hnil]
        simp [List.filter]
      · rw [if_neg ha, hnil]
        have hne : acc.reverse ≠ [] := by simpa using ha
        simp [List.filter, List.isEmpty_eq_false.mpr hne]
    · rw [show splitWsAux acc (c :: cs) = splitWsAux (c :: acc) cs from by
        simp [splitWsAux, hw]]
      rw [ih (c :: acc), show ((c :: cs).splitOnP isWsChar)
          = (cs.splitOnP isWsChar).modifyHead (List.cons c) from by
        simp [List.splitOnP_cons, hw]]
      rw [List.modifyHead_modifyHead]
      congr 2
      funext t
      simp [List.reverse_cons, List.append_assoc]

theorem splitWs_eq (l : List Char) :
    splitWsAux [] l = (l.splitOnP isWsChar).filter (fun r => !r.isEmpty) := by
  rw [splitWsAux_eq l []]
  rw [show (fun t : List Char => ([] : List Char).reverse ++ t) = fun t => t from
    funext fun t => by simp]
  rw [modifyHeadId]

theorem trimChars_eq (f : List Char) :
    trimChars f = (f.dropWhile isWsChar).rdropWhile isWsChar := rfl

/-- C9: for every stdin text, the row list `main` passes to the renderer is
obtained by splitting the input on whitespace boundaries into records (the
nonempty whitespace-separated segments), splitting each record on commas into
fields, and trimming each field of surrounding whitespace. -/
theorem main_rows_eq_spec (input : String) : main_rows input = spec_rows input := by
  unfold main_rows spec_rows
  rw [splitWs_eq]
  refine List.map_congr_left ?_
  intro r _
  rw [splitComma_eq]
  refine List.map_congr_left ?_
  intro f _
  rw [trimChars_eq]
